import Mathlib

/-!
Verification of the CareerGraph career-graph engine.

The definitions below are a shallow embedding of the Python sources:
* `src/core/graph_analyzer.py` (class `CareerGraphAnalyzer`): the in-memory
  snapshot (a `networkx.DiGraph` of `PathNode` rows and `PathConnection`
  rows), depth-bounded DFS path enumeration, path analysis/ranking, the
  next-steps query, the profile/path matcher and the profile search.
* `src/scraper/tasks.py` (`update_career_graph`): the graph builder that
  ingests one profile's career path into the durable store.

Machine integers are modelled as `Nat` (Django `PositiveIntegerField`s and
auto-increment primary keys); Python `dict` results become structures or
`Except`; Python exceptions that a routine lets escape become explicit
failure results.
-/

namespace CareerGraph

/-- A node of the in-memory snapshot: one `PathNode` row as loaded by
`_load_graph_data` (`id`, `type`, `value`, `profiles_count`). -/
structure GNode where
  id : Nat
  type : String
  value : String
  profilesCount : Nat
deriving DecidableEq

/-- An edge of the in-memory snapshot: one `PathConnection` row as loaded by
`_load_graph_data` (`from_node.id`, `to_node.id`, `weight`, list of member
profile ids). At most one edge per ordered pair (`unique_together
['from_node', 'to_node']`). -/
structure GEdge where
  src : Nat
  dst : Nat
  weight : Nat
  profiles : List Nat
deriving DecidableEq

/-- The in-memory snapshot (`self.graph`, a `networkx.DiGraph`). -/
structure Graph where
  nodes : List GNode
  edges : List GEdge
deriving DecidableEq

/-- `self.graph.successors(n)`: targets of the edges leaving `n`, in edge
insertion order. -/
def Graph.successors (g : Graph) (n : Nat) : List Nat :=
  (g.edges.filter (fun e => e.src == n)).map (fun e => e.dst)

/-- `self.graph.has_edge(a, b)`. -/
def Graph.hasEdge (g : Graph) (a b : Nat) : Bool :=
  g.edges.any (fun e => e.src == a && e.dst == b)

/-- `self.graph.edges[a, b]` (`none` when the edge is absent). -/
def Graph.edgeData (g : Graph) (a b : Nat) : Option GEdge :=
  g.edges.find? (fun e => e.src == a && e.dst == b)

/-- `self.graph.nodes[n]` (`none` when the node is absent). -/
def Graph.nodeData (g : Graph) (n : Nat) : Option GNode :=
  g.nodes.find? (fun m => m.id == n)

/-- The recursive worker `dfs(current_node, path, depth)` of
`_dfs_paths_from_node`.  `fuel` stands for `max_depth - depth`, so the guard
`if depth >= max_depth: return` is the `fuel = 0` case.  The Python body
appends `path.copy()` to `paths` whenever `len(path) > 1`, then recurses into
every successor not already on the path; the returned list is the same
`paths` list in the same (preorder, successor-order) sequence. -/
def dfsAux (g : Graph) : Nat → Nat → List Nat → List (List Nat)
  | 0, _, _ => []
  | fuel + 1, current, path =>
    (if path.length > 1 then [path] else []) ++
      ((g.successors current).filter (fun s => !path.contains s)).flatMap
        (fun s => dfsAux g fuel s (path ++ [s]))

/-- `_dfs_paths_from_node(start_node, max_depth)`: `dfs(start_node,
[start_node], 0)`. -/
def dfsPathsFromNode (g : Graph) (startNode : Nat) (maxDepth : Nat) : List (List Nat) :=
  dfsAux g maxDepth startNode [startNode]

/-- Every two consecutive elements of the list are joined by an edge of the
snapshot. -/
def chainEdges (g : Graph) : List Nat → Bool
  | a :: b :: rest => g.hasEdge a b && chainEdges g (b :: rest)
  | _ => true

/-- Specification-side predicate: `p` is a simple path of the snapshot
starting at `s` (consecutive elements joined by edges, no repeated node). -/
def isSimplePathFrom (g : Graph) (s : Nat) (p : List Nat) : Prop :=
  p.head? = some s ∧ chainEdges g p = true ∧ p.Nodup

instance (g : Graph) (s : Nat) (p : List Nat) : Decidable (isSimplePathFrom g s p) :=
  inferInstanceAs (Decidable (_ ∧ _ ∧ _))

lemma mem_successors {g : Graph} {a b : Nat} :
    b ∈ g.successors a ↔ g.hasEdge a b = true := by
  simp only [Graph.successors, Graph.hasEdge, List.mem_map, List.mem_filter,
    List.any_eq_true, Bool.and_eq_true, beq_iff_eq]
  constructor
  · rintro ⟨e, ⟨he, hsrc⟩, hdst⟩
    exact ⟨e, he, hsrc, hdst⟩
  · rintro ⟨e, he, hsrc, hdst⟩
    exact ⟨e, ⟨he, hsrc⟩, hdst⟩

/-- Soundness invariant of the DFS worker: starting from a duplicate-free
`path`, every recorded path is duplicate-free, longer than one node, no
longer than `path` plus the remaining fuel minus one, and extends `path`. -/
lemma dfsAux_sound (g : Graph) :
    ∀ (fuel : Nat) (current : Nat) (path : List Nat), path.Nodup →
      ∀ p ∈ dfsAux g fuel current path,
        p.Nodup ∧ 1 < p.length ∧ p.length + 1 ≤ path.length + fuel := by
  intro fuel
  induction fuel with
  | zero => intro current path _ p hp; simp [dfsAux] at hp
  | succ f ih =>
    intro current path hnd p hp
    simp only [dfsAux, List.mem_append] at hp
    rcases hp with hp | hp
    · rcases Nat.lt_or_ge 1 path.length with hlen | hlen
      · rw [if_pos hlen] at hp
        simp only [List.mem_singleton] at hp
        subst hp
        exact ⟨hnd, hlen, by omega⟩
      · rw [if_neg (by omega)] at hp
        simp at hp
    · rw [List.mem_flatMap] at hp
      rcases hp with ⟨s, hs, hrec⟩
      rw [List.mem_filter] at hs
      have hsnot : s ∉ path := by
        have := hs.2
        simpa using this
      have hnd' : (path ++ [s]).Nodup := by
        simp [List.nodup_append, hnd, hsnot]
      have := ih s (path ++ [s]) hnd' p hrec
      refine ⟨this.1, this.2.1, ?_⟩
      have := this.2.2
      simp only [List.length_append, List.length_singleton] at this
      omega

/-- Completeness invariant of the DFS worker: any extension `ext` of the
current `path` along edges, visiting no node twice, is recorded provided the
remaining fuel strictly exceeds the number of extension steps and the final
path has at least two nodes. -/
lemma dfsAux_complete (g : Graph) :
    ∀ (ext : List Nat) (fuel : Nat) (path : List Nat) (current : Nat),
      path.getLast? = some current →
      (path ++ ext).Nodup →
      chainEdges g (current :: ext) = true →
      ext.length < fuel →
      1 < (path ++ ext).length →
      (path ++ ext) ∈ dfsAux g fuel current path := by
  intro ext
  induction ext with
  | nil =>
    intro fuel path current _ hnd _ hfuel hlen
    match fuel, hfuel with
    | f + 1, _ =>
      simp only [List.append_nil] at hnd hlen ⊢
      simp only [dfsAux, List.mem_append]
      left
      rw [if_pos hlen]
      simp
  | cons s rest ih =>
    intro fuel path current hlast hnd hchain hfuel hlen
    match fuel, hfuel with
    | f + 1, hfuel =>
      have hchain' : g.hasEdge current s = true ∧ chainEdges g (s :: rest) = true := by
        simpa [chainEdges, Bool.and_eq_true] using hchain
      simp only [dfsAux, List.mem_append]
      right
      rw [List.mem_flatMap]
      refine ⟨s, ?_, ?_⟩
      · rw [List.mem_filter]
        constructor
        · exact mem_successors.mpr hchain'.1
        · have hsnot : s ∉ path := by
            have := (List.nodup_append.mp hnd).2.2
            intro hmem
            exact this hmem (by simp)
          simpa using hsnot
      · have hassoc : path ++ s :: rest = (path ++ [s]) ++ rest := by simp
        rw [hassoc]
        apply ih f (path ++ [s]) s
        · exact List.getLast?_concat path
        · rw [← hassoc]; exact hnd
        · exact hchain'.2
        · simpa using hfuel
        · simp only [List.length_append, List.length_cons] at hlen ⊢
          omega

lemma flatMap_const_nil {α β : Type} (l : List α) :
    (l.flatMap fun _ => ([] : List β)) = [] := by
  induction l <;> simp [*]

/-- A two-node snapshot: MIT --(weight 1, member profile 7)--> Google. -/
def exG : Graph :=
  ⟨[⟨1, "university", "MIT", 0⟩, ⟨2, "company", "Google", 0⟩], [⟨1, 2, 1, [7]⟩]⟩

/-- C3: false as stated.  In the snapshot `exG`, `[1, 2]` is a simple path
from node 1 with 2 nodes and exactly `maxDepth = 1` edges, yet
`_dfs_paths_from_node(1, 1)` records nothing: the guard `depth >= max_depth`
fires before a path with `maxDepth` edges can be appended. -/
theorem claim_C3_counterexample :
    isSimplePathFrom exG 1 [1, 2] ∧ 2 ≤ ([1, 2] : List Nat).length ∧
      ([1, 2] : List Nat).length - 1 ≤ 1 ∧ [1, 2] ∉ dfsPathsFromNode exG 1 1 := by
  decide

/-- C3 (amended): path enumeration is complete up to `maxDepth - 1` edges:
every simple path from the start node with at least 2 nodes and at most
`maxDepth - 1` edges (equivalently, at most `maxDepth` nodes) is recorded by
`_dfs_paths_from_node`; a branch stops being extended only once
`maxDepth - 1` edges have been taken or no unvisited successor remains. -/
theorem claim_C3 (g : Graph) (s : Nat) (d : Nat) (p : List Nat)
    (hpath : isSimplePathFrom g s p) (hlen : 2 ≤ p.length) (hbound : p.length ≤ d) :
    p ∈ dfsPathsFromNode g s d := by
  rcases hpath with ⟨hhead, hchain, hnd⟩
  match p, hhead with
  | x :: tail, hhead =>
    have hx : x = s := by simpa using hhead
    subst hx
    have : ([x] ++ tail) ∈ dfsAux g d x [x] := by
      apply dfsAux_complete g tail d [x] x
      · rfl
      · simpa using hnd
      · exact hchain
      · simp only [List.length_cons] at hbound hlen
        omega
      · simpa using hlen
    simpa using this

/-- C3 witness: the amended bound realized on `exG` with `maxDepth = 2`. -/
theorem claim_C3_witness : [1, 2] ∈ dfsPathsFromNode exG 1 2 :=
  claim_C3 exG 1 2 [1, 2] (by decide) (by decide) (by decide)

/-- C5: every path returned by `_dfs_paths_from_node` is simple (no repeated
node) and has at most `maxDepth` edges. -/
theorem claim_C5 (g : Graph) (s : Nat) (d : Nat) (p : List Nat)
    (hp : p ∈ dfsPathsFromNode g s d) : p.Nodup ∧ p.length - 1 ≤ d := by
  have := dfsAux_sound g d s [s] (by simp) p hp
  refine ⟨this.1, ?_⟩
  have := this.2.2
  simp only [List.length_singleton] at this
  omega

/-- C5 witness: soundness realized on `exG` with `maxDepth = 2`. -/
theorem claim_C5_witness :
    ([1, 2] : List Nat).Nodup ∧ ([1, 2] : List Nat).length - 1 ≤ 2 :=
  claim_C5 exG 1 2 [1, 2] (by decide)

/-- C10: every path returned by `_dfs_paths_from_node` has at least 2 and at
most `maxDepth` nodes — hence at most `maxDepth - 1` edges, because the depth
cutoff is tested before a path is recorded — and for `maxDepth ≤ 1` the
result list is empty (whatever successors the start node has). -/
theorem claim_C10 (g : Graph) (s : Nat) (d : Nat) :
    (∀ p ∈ dfsPathsFromNode g s d, 2 ≤ p.length ∧ p.length ≤ d) ∧
      (d ≤ 1 → dfsPathsFromNode g s d = []) := by
  constructor
  · intro p hp
    have := dfsAux_sound g d s [s] (by simp) p hp
    have h1 := this.2.1
    have h2 := this.2.2
    simp only [List.length_singleton] at h2
    omega
  · intro hd
    match d, hd with
    | 0, _ => rfl
    | 1, _ =>
      show dfsAux g 1 s [s] = []
      simp only [dfsAux, List.length_singleton]
      rw [if_neg (by omega)]
      simp only [List.nil_append]
      exact flatMap_const_nil _

/-- C10 witness: with `maxDepth = 1` the enumeration from node 1 of `exG` is
empty even though node 1 has a successor. -/
theorem claim_C10_witness :
    dfsPathsFromNode exG 1 1 = [] ∧ exG.successors 1 ≠ [] :=
  ⟨(claim_C10 exG 1 1).2 (by decide), by decide⟩

/-- A (category, value) descriptor: one element of `selected_nodes` or of
the flattened profile sequence (a `{'type': ..., 'value': ...}` dict). -/
structure SelNode where
  type : String
  value : String
deriving DecidableEq

/-- One education row as used by the matcher: `edu.university.name` plus the
`end_year` ordering key. -/
structure EduRec where
  university : String
  endYear : Nat
deriving DecidableEq

/-- One experience row as used by the matcher: `exp.company.name` and
`exp.title` plus the `start_date` ordering key. -/
structure ExpRec where
  company : String
  title : String
  startDate : Nat
deriving DecidableEq

/-- One `LinkedInProfile` row together with its education and experience
rows (in database order). -/
structure ProfileRec where
  id : Nat
  educations : List EduRec
  experiences : List ExpRec
deriving DecidableEq

/-- One loop iteration of the cursor scan at the end of
`_profile_matches_path`: when the cursor is still inside `selected_nodes`
and the current sequence item agrees with the element at the cursor on type
and value, the cursor advances by one. -/
def matchesStep (selectedNodes : List SelNode) (idx : Nat) (item : SelNode) : Nat :=
  match selectedNodes[idx]? with
  | some sel => if item.type == sel.type && item.value == sel.value then idx + 1 else idx
  | none => idx

/-- The cursor scan of `_profile_matches_path`: fold the profile sequence
left to right starting the cursor at 0; success iff the cursor reaches the
end of `selected_nodes`. -/
def matchScan (profileSequence selectedNodes : List SelNode) : Bool :=
  profileSequence.foldl (matchesStep selectedNodes) 0 == selectedNodes.length

/-- The flattened career sequence built at the top of
`_profile_matches_path`: one university element per education ordered by
`end_year`, then per experience ordered by `start_date` a company element
followed by a title element (`order_by` modelled as a stable sort on the
key). -/
def profileSequence (p : ProfileRec) : List SelNode :=
  ((p.educations.insertionSort (fun a b => a.endYear ≤ b.endYear)).map
      (fun e => ⟨"university", e.university⟩)) ++
    ((p.experiences.insertionSort (fun a b => a.startDate ≤ b.startDate)).flatMap
      (fun e => [⟨"company", e.company⟩, ⟨"title", e.title⟩]))

/-- `_profile_matches_path(profile, selected_nodes)`. -/
def profile_matches_path (p : ProfileRec) (selectedNodes : List SelNode) : Bool :=
  matchScan (profileSequence p) selectedNodes

lemma cons_sublist_cons_of_ne {α : Type} {a b : α} (hab : a ≠ b) {t l : List α} :
    (a :: t).Sublist (b :: l) ↔ (a :: t).Sublist l := by
  constructor
  · intro h
    cases h with
    | cons _ h => exact h
    | cons₂ => exact absurd rfl hab
  · intro h
    exact h.cons b

/-- The scan cursor, started at `idx`, reaches the end of the query exactly
when the not-yet-matched part of the query is an ordered subsequence of the
remaining profile sequence. -/
lemma foldl_matchesStep (qs : List SelNode) :
    ∀ (ps : List SelNode) (idx : Nat), idx ≤ qs.length →
      (ps.foldl (matchesStep qs) idx = qs.length ↔ (qs.drop idx).Sublist ps) := by
  intro ps
  induction ps with
  | nil =>
    intro idx hidx
    simp only [List.foldl_nil, List.sublist_nil, List.drop_eq_nil_iff]
    omega
  | cons p ps ih =>
    intro idx hidx
    rw [List.foldl_cons]
    cases hq : qs[idx]? with
    | none =>
      have hge : qs.length ≤ idx := by
        simpa using List.getElem?_eq_none_iff.mp hq
      have hstep : matchesStep qs idx p = idx := by
        simp [matchesStep, hq]
      have hdrop : qs.drop idx = [] := by
        rw [List.drop_eq_nil_iff]; omega
      rw [hstep, hdrop]
      simp only [List.nil_sublist, iff_true]
      rw [ih idx hidx, hdrop]
      exact List.nil_sublist ps
    | some q =>
      have hlt : idx < qs.length := by
        rcases List.getElem?_eq_some_iff.mp hq with ⟨h, _⟩
        exact h
      have hdrop : qs.drop idx = q :: qs.drop (idx + 1) := by
        rw [List.drop_eq_getElem_cons hlt]
        congr 1
        rcases List.getElem?_eq_some_iff.mp hq with ⟨h, hg⟩
        exact hg
      by_cases hpq : p.type = q.type ∧ p.value = q.value
      · have hp : p = q := by
          cases p; cases q
          simp only at hpq
          simp [hpq.1, hpq.2]
        have hstep : matchesStep qs idx p = idx + 1 := by
          simp [matchesStep, hq, hpq.1, hpq.2]
        rw [hstep, ih (idx + 1) hlt, hdrop, hp]
        exact (List.cons_sublist_cons).symm
      · have hne : q ≠ p := by
          intro h
          subst h
          exact hpq ⟨rfl, rfl⟩
        have hstep : matchesStep qs idx p = idx := by
          simp only [matchesStep, hq]
          rw [if_neg]
          simp only [Bool.and_eq_true, beq_iff_eq]
          intro h
          exact hpq h
        rw [hstep, ih idx hidx, hdrop]
        exact (cons_sublist_cons_of_ne hne).symm

/-- C4: the path matcher decides exactly the ordered-subsequence relation.
`matchScan` (the greedy left-to-right cursor scan of
`_profile_matches_path`) succeeds on a pair of sequences iff the selected
path occurs as an ordered, not necessarily contiguous, subsequence of the
profile sequence under (type, value) equality; consequently
`_profile_matches_path` decides the subsequence relation against the
profile's flattened career sequence. -/
theorem claim_C4 :
    (∀ (ps qs : List SelNode), matchScan ps qs = true ↔ qs.Sublist ps) ∧
      (∀ (p : ProfileRec) (sel : List SelNode),
        profile_matches_path p sel = true ↔ sel.Sublist (profileSequence p)) := by
  have key : ∀ (ps qs : List SelNode), matchScan ps qs = true ↔ qs.Sublist ps := by
    intro ps qs
    unfold matchScan
    rw [beq_iff_eq]
    have := foldl_matchesStep qs ps 0 (Nat.zero_le _)
    simpa using this
  exact ⟨key, fun p sel => key (profileSequence p) sel⟩

/-- C4 witness: the scan accepts a non-contiguous subsequence and the full
matcher agrees on a concrete profile. -/
theorem claim_C4_witness :
    matchScan [⟨"university", "MIT"⟩, ⟨"company", "Google"⟩, ⟨"title", "SWE"⟩]
        [⟨"university", "MIT"⟩, ⟨"title", "SWE"⟩] = true ∧
      profile_matches_path ⟨1, [⟨"MIT", 2010⟩], [⟨"Google", "SWE", 2011⟩]⟩
        [⟨"university", "MIT"⟩, ⟨"title", "SWE"⟩] = true :=
  ⟨(claim_C4.1 _ _).mpr (by decide),
    (claim_C4.2 _ _).mpr (by decide)⟩

/-- One entry of the `path_nodes` list built by `_analyze_path` for a
consecutive pair of the path. -/
structure PathStep where
  fromType : String
  fromValue : String
  toType : String
  toValue : String
  weight : Nat
  profilesCount : Nat
deriving DecidableEq

/-- The body of one iteration of `_analyze_path`'s loop: the edge data and
the two endpoint node data (`none` when the edge is missing — the explicit
`return None` — or an endpoint's data is missing — a `KeyError` swallowed by
the catch-all into `None`). -/
def stepInfo (g : Graph) (a b : Nat) : Option PathStep :=
  match g.edgeData a b, g.nodeData a, g.nodeData b with
  | some e, some fd, some td =>
      some ⟨fd.type, fd.value, td.type, td.value, e.weight, e.profiles.length⟩
  | _, _, _ => none

/-- `min_weight = min(min_weight, w)`, with `none` standing for the initial
`float('inf')`. -/
def minOpt (m : Option Nat) (w : Nat) : Option Nat :=
  match m with
  | none => some w
  | some m => some (min m w)

/-- The result dict of `_analyze_path`.  The floating-point
`strength_score` field, which no claim concerns, is omitted. -/
structure PathInfo where
  steps : List PathStep
  totalProfiles : Option Nat
  pathLength : Nat
deriving DecidableEq

/-- The loop of `_analyze_path` over the consecutive pairs of the path,
accumulating `path_nodes` and `min_weight`. -/
def analyzeGo (g : Graph) : List Nat → List PathStep → Option Nat →
    Option (List PathStep × Option Nat)
  | a :: b :: rest, acc, m =>
    match stepInfo g a b with
    | none => none
    | some st => analyzeGo g (b :: rest) (acc ++ [st]) (minOpt m st.weight)
  | _, acc, m => some (acc, m)

/-- `_analyze_path(path)`: `None` for paths of fewer than 2 nodes or when a
step is missing from the snapshot; otherwise the steps, the bottleneck
`total_profiles = min_weight` and the node count. -/
def analyzePath (g : Graph) (path : List Nat) : Option PathInfo :=
  if path.length < 2 then none
  else
    match analyzeGo g path [] none with
    | none => none
    | some (steps, m) => some ⟨steps, m, path.length⟩

/-- Specification-side: the weights of the edges along the consecutive pairs
of a path (`none` when some pair is not an edge of the snapshot). -/
def pathEdgeWeights (g : Graph) : List Nat → Option (List Nat)
  | a :: b :: rest =>
    match g.edgeData a b with
    | none => none
    | some e =>
      match pathEdgeWeights g (b :: rest) with
      | none => none
      | some ws => some (e.weight :: ws)
  | _ => some []

/-- Python numeric `<=` on `total_profiles` values, where `none` plays
`float('inf')`. -/
def wLE : Option Nat → Option Nat → Bool
  | _, none => true
  | none, some _ => false
  | some a, some b => Nat.ble a b

/-- The descending comparison used by
`paths.sort(key=lambda x: x['total_profiles'], reverse=True)`. -/
def rankGE (x y : PathInfo) : Prop := wLE y.totalProfiles x.totalProfiles = true

instance : DecidableRel rankGE := fun _ _ => inferInstanceAs (Decidable (_ = true))

lemma wLE_refl (a : Option Nat) : wLE a a = true := by
  cases a <;> simp [wLE, Nat.ble_eq]

lemma wLE_total (a b : Option Nat) : wLE a b = true ∨ wLE b a = true := by
  cases a <;> cases b <;> simp [wLE, Nat.ble_eq] <;> omega

lemma wLE_trans {a b c : Option Nat} (h1 : wLE a b = true) (h2 : wLE b c = true) :
    wLE a c = true := by
  cases a <;> cases b <;> cases c <;> simp_all [wLE, Nat.ble_eq] <;> omega

instance : IsTotal PathInfo rankGE :=
  ⟨fun x y => (wLE_total y.totalProfiles x.totalProfiles).imp id id⟩

instance : IsTrans PathInfo rankGE :=
  ⟨fun _ _ _ h1 h2 => wLE_trans h2 h1⟩

/-- `paths.sort(key=lambda x: x['total_profiles'], reverse=True)`: CPython's
sort is stable, and a stable descending sort is insertion sort under the
descending comparison. -/
def rankPaths (l : List PathInfo) : List PathInfo := l.insertionSort rankGE

/-- The candidate results in discovery order: the DFS enumeration filtered
through `_analyze_path`. -/
def careerPathCandidates (g : Graph) (u d : Nat) : List PathInfo :=
  (dfsPathsFromNode g u d).filterMap (analyzePath g)

/-- The `university_nodes` comprehension of
`find_career_paths_from_university`. -/
def findUniversityNodes (g : Graph) (name : String) : List Nat :=
  (g.nodes.filter (fun n => n.type == "university" && n.value == name)).map (fun n => n.id)

/-- The success dict of `find_career_paths_from_university`. -/
structure PathsResult where
  university : String
  totalPaths : Nat
  paths : List PathInfo
deriving DecidableEq

/-- The error dicts the analyzer returns (`{'error': ...}`), as typed
results. -/
inductive QueryError where
  | universityNotFound (name : String)
  | noNodesSelected
  | nodeNotFound (t v : String)
deriving DecidableEq

/-- `find_career_paths_from_university(university_name, max_depth)`. -/
def find_career_paths_from_university (g : Graph) (name : String) (maxDepth : Nat) :
    Except QueryError PathsResult :=
  match findUniversityNodes g name with
  | [] => .error (.universityNotFound name)
  | u :: _ =>
    let ranked := rankPaths (careerPathCandidates g u maxDepth)
    .ok ⟨name, ranked.length, ranked.take 50⟩

lemma foldl_minOpt_some :
    ∀ (ws : List Nat) (m0 : Nat),
      ∃ m, ws.foldl minOpt (some m0) = some m ∧ (m = m0 ∨ m ∈ ws) ∧ m ≤ m0 ∧
        ∀ w ∈ ws, m ≤ w := by
  intro ws
  induction ws with
  | nil => intro m0; exact ⟨m0, rfl, Or.inl rfl, le_refl _, by simp⟩
  | cons w ws ih =>
    intro m0
    rcases ih (min m0 w) with ⟨m, hfold, hor, hle, hall⟩
    refine ⟨m, ?_, ?_, ?_, ?_⟩
    · simpa [minOpt] using hfold
    · rcases hor with h | h
      · rcases Nat.le_total m0 w with hmw | hmw
        · exact Or.inl (by omega)
        · exact Or.inr (by simp [h]; omega)
      · exact Or.inr (by simp [h])
    · exact le_trans hle (Nat.min_le_left _ _)
    · intro w' hw'
      rcases List.mem_cons.mp hw' with h | h
      · subst h; exact le_trans hle (Nat.min_le_right _ _)
      · exact hall w' h

lemma foldl_minOpt_none (ws : List Nat) (h : ws ≠ []) :
    ∃ m, ws.foldl minOpt none = some m ∧ m ∈ ws ∧ ∀ w ∈ ws, m ≤ w := by
  match ws, h with
  | w :: ws, _ =>
    rcases foldl_minOpt_some ws w with ⟨m, hfold, hor, hle, hall⟩
    refine ⟨m, ?_, ?_, ?_⟩
    · simpa [minOpt] using hfold
    · rcases hor with h | h
      · simp [h]
      · simp [h]
    · intro w' hw'
      rcases List.mem_cons.mp hw' with h | h
      · subst h; exact hle
      · exact hall w' h

/-- The accumulated `min_weight` of `_analyze_path`'s loop is the `minOpt`
fold over the edge weights along the path. -/
lemma analyzeGo_weights (g : Graph) :
    ∀ (p : List Nat) (acc : List PathStep) (m : Option Nat)
      (steps : List PathStep) (m' : Option Nat),
      analyzeGo g p acc m = some (steps, m') →
      ∃ ws, pathEdgeWeights g p = some ws ∧ m' = ws.foldl minOpt m := by
  intro p
  induction p with
  | nil =>
    intro acc m steps m' h
    refine ⟨[], rfl, ?_⟩
    simp only [analyzeGo, Option.some.injEq, Prod.mk.injEq] at h
    simp [h.2]
  | cons a tail ih =>
    intro acc m steps m' h
    match tail with
    | [] =>
      refine ⟨[], rfl, ?_⟩
      simp only [analyzeGo, Option.some.injEq, Prod.mk.injEq] at h
      simp [h.2]
    | b :: rest =>
      simp only [analyzeGo] at h
      cases hst : stepInfo g a b with
      | none => rw [hst] at h; exact absurd h (by simp)
      | some st =>
        rw [hst] at h
        rcases ih (acc ++ [st]) (minOpt m st.weight) steps m' h with ⟨ws, hws, hm⟩
        have hedge : ∃ e, g.edgeData a b = some e ∧ st.weight = e.weight := by
          unfold stepInfo at hst
          cases he : g.edgeData a b <;> rw [he] at hst
          · exact absurd hst (by simp)
          · cases hfd : g.nodeData a <;> rw [hfd] at hst
            · exact absurd hst (by simp)
            · cases htd : g.nodeData b <;> rw [htd] at hst
              · exact absurd hst (by simp)
              · refine ⟨_, rfl, ?_⟩
                have := Option.some.inj hst
                rw [← this]
        rcases hedge with ⟨e, he, hw⟩
        refine ⟨e.weight :: ws, ?_, ?_⟩
        · simp only [pathEdgeWeights, he, hws]
        · rw [hm, List.foldl_cons, hw]

/-- C6: for every candidate path, `_analyze_path` reports `total_profiles`
equal to the minimum edge weight along the path (a member of the weight list
that bounds every weight from below), and
`find_career_paths_from_university` returns at most the top 50 paths, sorted
descending by `total_profiles` with ties kept in discovery order (the filter
of the returned list at any value of `total_profiles` is an initial segment
of the filter of the discovery-ordered candidate list). -/
theorem claim_C6 :
    (∀ (g : Graph) (p : List Nat) (r : PathInfo), analyzePath g p = some r →
      ∃ ws, pathEdgeWeights g p = some ws ∧
        ∃ m, r.totalProfiles = some m ∧ m ∈ ws ∧ ∀ w ∈ ws, m ≤ w) ∧
    (∀ (g : Graph) (name : String) (d : Nat) (res : PathsResult),
      find_career_paths_from_university g name d = .ok res →
        res.paths.length ≤ 50 ∧ List.Sorted rankGE res.paths ∧
        ∃ u rest, findUniversityNodes g name = u :: rest ∧
          ∀ k : Option Nat, ∃ t,
            (careerPathCandidates g u d).filter (fun r => decide (r.totalProfiles = k)) =
              res.paths.filter (fun r => decide (r.totalProfiles = k)) ++ t) := by
  constructor
  · intro g p r h
    unfold analyzePath at h
    by_cases hlen : p.length < 2
    · rw [if_pos hlen] at h; exact absurd h (by simp)
    · rw [if_neg hlen] at h
      cases hgo : analyzeGo g p [] none with
      | none => rw [hgo] at h; exact absurd h (by simp)
      | some pr =>
        rw [hgo] at h
        rcases analyzeGo_weights g p [] none pr.1 pr.2 (by rw [hgo]) with ⟨ws, hws, hm⟩
        have hwsne : ws ≠ [] := by
          rcases p with _ | ⟨a, _ | ⟨b, rest⟩⟩
          · exact absurd (by simp) hlen
          · exact absurd (by simp) hlen
          · intro hnil
            simp only [pathEdgeWeights] at hws
            cases he : g.edgeData a b <;> rw [he] at hws
            · exact absurd hws (by simp)
            · cases hrest : pathEdgeWeights g (b :: rest) <;> rw [hrest] at hws
              · exact absurd hws (by simp)
              · rw [hnil] at hws
                exact absurd (Option.some.inj hws) (by simp)
        rcases foldl_minOpt_none ws hwsne with ⟨m, hfold, hmem, hbound⟩
        have hr : r = ⟨pr.1, pr.2, p.length⟩ := by
          have := Option.some.inj h
          rw [← this]
        refine ⟨ws, hws, m, ?_, hmem, hbound⟩
        rw [hr]
        show pr.2 = some m
        rw [hm, hfold]
  · intro g name d res h
    unfold find_career_paths_from_university at h
    cases hu : findUniversityNodes g name with
    | nil => rw [hu] at h; exact absurd h (by simp)
    | cons u rest =>
      rw [hu] at h
      have hres : res = ⟨name, (rankPaths (careerPathCandidates g u d)).length,
          (rankPaths (careerPathCandidates g u d)).take 50⟩ := by
        have := Except.ok.inj h
        rw [← this]
      set cands := careerPathCandidates g u d with hcands
      set sorted := rankPaths cands with hsorted
      have hpaths : res.paths = sorted.take 50 := by rw [hres]
      have hsortedsorted : List.Sorted rankGE sorted :=
        List.sorted_insertionSort rankGE cands
      refine ⟨?_, ?_, u, rest, rfl, ?_⟩
      · rw [hpaths]; exact List.length_take_le _ _
      · rw [hpaths]
        exact hsortedsorted.sublist (List.take_sublist _ _)
      · intro k
        set p := fun r : PathInfo => decide (r.totalProfiles = k) with hp
        have hcpair : (cands.filter p).Pairwise rankGE := by
          apply List.pairwise_of_forall_mem_list
          intro x hx y hy
          have hxk : x.totalProfiles = k := by
            have := (List.mem_filter.mp hx).2
            simpa [hp] using this
          have hyk : y.totalProfiles = k := by
            have := (List.mem_filter.mp hy).2
            simpa [hp] using this
          show wLE y.totalProfiles x.totalProfiles = true
          rw [hxk, hyk]
          exact wLE_refl k
        have hcsub : (cands.filter p).Sublist sorted :=
          List.sublist_insertionSort hcpair (List.filter_sublist cands)
        have hperm : (sorted.filter p).Perm (cands.filter p) :=
          (List.perm_insertionSort rankGE cands).filter p
        have hcfilter : (cands.filter p).filter p = cands.filter p := by
          rw [List.filter_eq_self]
          intro a ha
          exact (List.mem_filter.mp ha).2
        have hsub2 : (cands.filter p).Sublist (sorted.filter p) := by
          have := hcsub.filter p
          rwa [hcfilter] at this
        have heq : cands.filter p = sorted.filter p :=
          hsub2.eq_of_length (by rw [hperm.length_eq])
        refine ⟨(sorted.drop 50).filter p, ?_⟩
        rw [heq, hpaths, ← List.filter_append, List.take_append_drop]

/-- C6 witness: on the two-node snapshot `exG`, the query from MIT returns a
single path whose `total_profiles` is the bottleneck weight, within the
50-path bound and sorted. -/
theorem claim_C6_witness :
    (∃ r, analyzePath exG [1, 2] = some r ∧
      ∃ ws, pathEdgeWeights exG [1, 2] = some ws ∧
        ∃ m, r.totalProfiles = some m ∧ m ∈ ws ∧ ∀ w ∈ ws, m ≤ w) ∧
    (∃ res, find_career_paths_from_university exG "MIT" 3 = .ok res ∧
      res.paths.length ≤ 50 ∧ List.Sorted rankGE res.paths) := by
  constructor
  · exact ⟨_, rfl, claim_C6.1 exG [1, 2] _ rfl⟩
  · refine ⟨_, rfl, ?_, ?_⟩
    · exact (claim_C6.2 exG "MIT" 3 _ rfl).1
    · exact (claim_C6.2 exG "MIT" 3 _ rfl).2.1

/-- `_find_node_id(node_type, node_value)`: linear scan over the snapshot's
nodes, first match wins, `None` when absent. -/
def findNodeId (g : Graph) (t v : String) : Option Nat :=
  (g.nodes.find? (fun n => n.type == t && n.value == v)).map (fun n => n.id)

/-- One entry of the `next_steps` list built by `find_next_steps`. -/
structure NextStep where
  type : String
  value : String
  profilesCount : Nat
  totalWeight : Nat
  matchingProfiles : List Nat
deriving DecidableEq

/-- The success dict of `find_next_steps`. -/
structure NextStepsResult where
  currentPath : List SelNode
  nextSteps : List NextStep
deriving DecidableEq

/-- The profile table (`LinkedInProfile.objects` with the related education
and experience rows). -/
structure DB where
  profiles : List ProfileRec
deriving DecidableEq

/-- `LinkedInProfile.objects.get(id=pid)` (`none` for `DoesNotExist`). -/
def DB.getProfile (db : DB) (pid : Nat) : Option ProfileRec :=
  db.profiles.find? (fun p => p.id == pid)

/-- `_filter_profiles_by_path(profile_ids, selected_nodes)`: keep the ids
whose profile row exists and whose career sequence matches the whole
selected path; a missing row (`DoesNotExist`) is skipped. -/
def filterProfilesByPath (db : DB) (profileIds : List Nat)
    (selectedNodes : List SelNode) : List Nat :=
  if selectedNodes.isEmpty then profileIds
  else
    profileIds.filter (fun pid =>
      match db.getProfile pid with
      | none => false
      | some p => profile_matches_path p selectedNodes)

/-- The descending comparison used by the `profiles_count` sort of
`find_next_steps`. -/
def stepGE (x y : NextStep) : Prop := y.profilesCount ≤ x.profilesCount

instance : DecidableRel stepGE := fun _ _ => Nat.decLe _ _

/-- `find_next_steps(selected_nodes)`.  The Python truthiness test `if not
last_node_id` treats a node id of 0 like a missing node; Django
auto-increment ids start at 1, but the embedding keeps the test faithful. -/
def find_next_steps (g : Graph) (db : DB) (selectedNodes : List SelNode) :
    Except QueryError NextStepsResult :=
  match selectedNodes.getLast? with
  | none => .error .noNodesSelected
  | some lastInfo =>
    match findNodeId g lastInfo.type lastInfo.value with
    | none => .error (.nodeNotFound lastInfo.type lastInfo.value)
    | some lastId =>
      if lastId = 0 then .error (.nodeNotFound lastInfo.type lastInfo.value)
      else
        let steps :=
          if (g.nodeData lastId).isSome then
            (g.successors lastId).filterMap (fun succ =>
              match g.edgeData lastId succ, g.nodeData succ with
              | some ed, some nd =>
                let matching := filterProfilesByPath db ed.profiles selectedNodes
                if matching.isEmpty then none
                else some ⟨nd.type, nd.value, matching.length, ed.weight, matching.take 10⟩
              | _, _ => none)
          else []
        .ok ⟨selectedNodes, (steps.insertionSort stepGE).take 20⟩

/-- C8: `find_next_steps` answers an empty selection with the explicit
`'No nodes selected'` error (ValidationError), and answers a selection whose
last element resolves to no node of the snapshot with the explicit
`'Node not found'` error (NodeNotFound) — typed failures, never a silently
empty success. -/
theorem claim_C8 :
    (∀ (g : Graph) (db : DB),
      find_next_steps g db [] = .error .noNodesSelected) ∧
    (∀ (g : Graph) (db : DB) (sel : List SelNode) (lastInfo : SelNode),
      sel.getLast? = some lastInfo →
      findNodeId g lastInfo.type lastInfo.value = none →
      find_next_steps g db sel = .error (.nodeNotFound lastInfo.type lastInfo.value)) := by
  constructor
  · intro g db
    rfl
  · intro g db sel lastInfo hlast hfind
    simp only [find_next_steps, hlast, hfind]

/-- C8 witness: both failure shapes on a concrete snapshot. -/
theorem claim_C8_witness :
    find_next_steps exG ⟨[]⟩ [] = .error .noNodesSelected ∧
      find_next_steps exG ⟨[]⟩ [⟨"university", "Nowhere"⟩] =
        .error (.nodeNotFound "university" "Nowhere") :=
  ⟨claim_C8.1 exG ⟨[]⟩, claim_C8.2 exG ⟨[]⟩ [⟨"university", "Nowhere"⟩] _ rfl rfl⟩

/-- The per-element match set of `_find_profiles_matching_path`: ids of the
profiles having an education/experience row satisfying the element's
category-specific filter (an unrecognised category matches nothing). -/
def profilesMatchingNode (db : DB) (node : SelNode) : List Nat :=
  if node.type == "university" then
    (db.profiles.filter
      (fun p => p.educations.any (fun e => e.university == node.value))).map (fun p => p.id)
  else if node.type == "company" then
    (db.profiles.filter
      (fun p => p.experiences.any (fun e => e.company == node.value))).map (fun p => p.id)
  else if node.type == "title" then
    (db.profiles.filter
      (fun p => p.experiences.any (fun e => e.title == node.value))).map (fun p => p.id)
  else []

/-- `LinkedInProfile.objects.values_list('id', flat=True)`. -/
def DB.allProfileIds (db : DB) : List Nat := db.profiles.map (fun p => p.id)

/-- `_find_profiles_matching_path(selected_nodes)`: start from the set of
all profile ids and intersect sequentially with each element's match set
(Python set intersection, modelled as an order-preserving filter). -/
def find_profiles_matching_path (db : DB) (selectedNodes : List SelNode) : List Nat :=
  if selectedNodes.isEmpty then []
  else
    selectedNodes.foldl
      (fun acc node => acc.filter (fun pid => (profilesMatchingNode db node).contains pid))
      db.allProfileIds

/-- The success dict of `get_profiles_for_path`; the per-profile display
dict (names, degree strings, date strings) is reduced to the underlying
profile row. -/
structure ProfilesResult where
  path : List SelNode
  totalMatches : Nat
  profiles : List ProfileRec
deriving DecidableEq

/-- The two result shapes of `get_profiles_for_path`: the early
`{'profiles': []}` for an empty selection, or the full dict. -/
inductive ProfilesResponse where
  | emptySelection
  | ok (r : ProfilesResult)
deriving DecidableEq

/-- `get_profiles_for_path(selected_nodes, limit)`: fetch the rows whose id
is among the first `limit` matches and report the full match count. -/
def get_profiles_for_path (db : DB) (selectedNodes : List SelNode) (limit : Nat) :
    ProfilesResponse :=
  if selectedNodes.isEmpty then .emptySelection
  else
    let matching := find_profiles_matching_path db selectedNodes
    let fetched := db.profiles.filter (fun p => (matching.take limit).contains p.id)
    .ok ⟨selectedNodes, matching.length, fetched⟩

/-- Membership in the sequential-intersection fold: survive every
per-element filter. -/
lemma foldl_intersect_mem (db : DB) :
    ∀ (sel : List SelNode) (init : List Nat) (pid : Nat),
      (pid ∈ sel.foldl
          (fun acc node => acc.filter (fun x => (profilesMatchingNode db node).contains x))
          init ↔
        pid ∈ init ∧ ∀ node ∈ sel, pid ∈ profilesMatchingNode db node) := by
  intro sel
  induction sel with
  | nil => intro init pid; simp
  | cons n ns ih =>
    intro init pid
    rw [List.foldl_cons, ih]
    rw [List.mem_filter]
    constructor
    · rintro ⟨⟨hinit, hc⟩, hall⟩
      refine ⟨hinit, ?_⟩
      intro node hnode
      rcases List.mem_cons.mp hnode with h | h
      · subst h; exact List.elem_iff.mp hc
      · exact hall node h
    · rintro ⟨hinit, hall⟩
      refine ⟨⟨hinit, ?_⟩, ?_⟩
      · exact List.elem_iff.mpr (hall n (by simp))
      · intro node hnode
        exact hall node (by simp [hnode])

/-- C9: the profile search is the sequential intersection of per-element
match sets — membership only, no ordering among the elements — the reported
`total_matches` is the true match count, at most `limit` rows are returned
(given primary-key uniqueness of profile ids), and a single-element path
naming a university with no associated profiles yields
`{total_matches: 0, profiles: []}`. -/
theorem claim_C9 :
    (∀ (db : DB) (sel : List SelNode) (pid : Nat), sel ≠ [] →
      (pid ∈ find_profiles_matching_path db sel ↔
        pid ∈ db.allProfileIds ∧ ∀ node ∈ sel, pid ∈ profilesMatchingNode db node)) ∧
    (∀ (db : DB) (sel : List SelNode) (limit : Nat) (r : ProfilesResult),
      get_profiles_for_path db sel limit = .ok r →
        r.totalMatches = (find_profiles_matching_path db sel).length ∧
        (db.allProfileIds.Nodup → r.profiles.length ≤ limit)) ∧
    (∀ (db : DB) (name : String) (limit : Nat),
      (∀ p ∈ db.profiles, ∀ e ∈ p.educations, e.university ≠ name) →
      get_profiles_for_path db [⟨"university", name⟩] limit =
        .ok ⟨[⟨"university", name⟩], 0, []⟩) := by
  refine ⟨?_, ?_, ?_⟩
  · intro db sel pid hne
    unfold find_profiles_matching_path
    rw [if_neg (by simpa using hne)]
    exact foldl_intersect_mem db sel db.allProfileIds pid
  · intro db sel limit r h
    unfold get_profiles_for_path at h
    by_cases hsel : sel.isEmpty
    · rw [if_pos hsel] at h; exact absurd h (by simp)
    · rw [if_neg hsel] at h
      have hr : r = ⟨sel, (find_profiles_matching_path db sel).length,
          db.profiles.filter
            (fun p => ((find_profiles_matching_path db sel).take limit).contains p.id)⟩ := by
        have := ProfilesResponse.ok.inj h
        rw [← this]
      constructor
      · rw [hr]
      · intro hnodup
        rw [hr]
        show (db.profiles.filter _).length ≤ limit
        set matching := find_profiles_matching_path db sel with hmatching
        set fetched := db.profiles.filter
          (fun p => (matching.take limit).contains p.id) with hfetched
        have hlen : fetched.length = (fetched.map (fun p => p.id)).length := by
          rw [List.length_map]
        have hsubl : (fetched.map (fun p => p.id)).Sublist db.allProfileIds :=
          (List.filter_sublist db.profiles).map (fun p => p.id)
        have hnd : (fetched.map (fun p => p.id)).Nodup := hnodup.sublist hsubl
        have hsubset : (fetched.map (fun p => p.id)) ⊆ matching.take limit := by
          intro x hx
          rcases List.mem_map.mp hx with ⟨p, hp, hpx⟩
          have := (List.mem_filter.mp hp).2
          rw [← hpx]
          exact List.elem_iff.mp this
        calc fetched.length = (fetched.map (fun p => p.id)).length := hlen
          _ ≤ (matching.take limit).length := (hnd.subperm hsubset).length_le
          _ ≤ limit := List.length_take_le _ _
  · intro db name limit hnone
    have hmatchnode : profilesMatchingNode db ⟨"university", name⟩ = [] := by
      unfold profilesMatchingNode
      rw [if_pos (by simp)]
      have : db.profiles.filter
          (fun p => p.educations.any (fun e => e.university == name)) = [] := by
        rw [List.filter_eq_nil_iff]
        intro p hp hany
        rw [List.any_eq_true] at hany
        rcases hany with ⟨e, he, hname⟩
        exact hnone p hp e he (by simpa using hname)
      rw [this]
      rfl
    have hmatching : find_profiles_matching_path db [⟨"university", name⟩] = [] := by
      unfold find_profiles_matching_path
      rw [if_neg (by simp)]
      rw [List.foldl_cons, List.foldl_nil, hmatchnode]
      rw [List.filter_eq_nil_iff]
      intro a _
      simp [List.contains]
    unfold get_profiles_for_path
    rw [if_neg (by simp)]
    rw [hmatching]
    simp [List.contains]

/-- C9 witness: a one-profile database queried with an unknown university
and with its own university. -/
theorem claim_C9_witness :
    (get_profiles_for_path ⟨[⟨1, [⟨"MIT", 2010⟩], []⟩]⟩ [⟨"university", "Unknown U"⟩] 50 =
      .ok ⟨[⟨"university", "Unknown U"⟩], 0, []⟩) ∧
    (1 ∈ find_profiles_matching_path ⟨[⟨1, [⟨"MIT", 2010⟩], []⟩]⟩ [⟨"university", "MIT"⟩] ↔
      1 ∈ DB.allProfileIds ⟨[⟨1, [⟨"MIT", 2010⟩], []⟩]⟩ ∧
        ∀ node ∈ [(⟨"university", "MIT"⟩ : SelNode)],
          1 ∈ profilesMatchingNode ⟨[⟨1, [⟨"MIT", 2010⟩], []⟩]⟩ node) :=
  ⟨claim_C9.2.2 ⟨[⟨1, [⟨"MIT", 2010⟩], []⟩]⟩ "Unknown U" 50 (by decide),
    claim_C9.1 ⟨[⟨1, [⟨"MIT", 2010⟩], []⟩]⟩ [⟨"university", "MIT"⟩] 1 (by decide)⟩

/-- One `PathNode` row of the durable store. -/
structure SNode where
  id : Nat
  type : String
  value : String
  profilesCount : Nat
deriving DecidableEq

/-- One `PathConnection` row of the durable store with its many-to-many
profile membership (a set: `profiles.add` never duplicates). -/
structure SEdge where
  fromId : Nat
  toId : Nat
  weight : Nat
  profiles : List Nat
deriving DecidableEq

/-- The durable graph store (the `PathNode` and `PathConnection` tables)
together with the auto-increment id counter (Django primary keys start
at 1). -/
structure Store where
  nodes : List SNode
  edges : List SEdge
  nextId : Nat
deriving DecidableEq

def emptyStore : Store := ⟨[], [], 1⟩

/-- `PathNode.objects.get_or_create(type=..., value=...)`; a new row gets
`profiles_count = 0`, the model's field default. -/
def getOrCreateNode (st : Store) (t v : String) : Store × Nat :=
  match st.nodes.find? (fun n => n.type == t && n.value == v) with
  | some n => (st, n.id)
  | none => (⟨st.nodes ++ [⟨st.nextId, t, v, 0⟩], st.edges, st.nextId + 1⟩, st.nextId)

/-- The `CareerPath` row fields consumed by `update_career_graph`: the
university names, company names and titles of the stored sequences. -/
structure CareerPathRec where
  universitySeq : List String
  companySeq : List String
  titleSeq : List String
deriving DecidableEq

/-- The three node-creation loops of `update_career_graph`: all
universities, then all companies, then all titles, skipping falsy (empty)
names. -/
def nodeSpecs (cp : CareerPathRec) : List (String × String) :=
  ((cp.universitySeq.filter (fun s => s != "")).map (fun s => ("university", s))) ++
    ((cp.companySeq.filter (fun s => s != "")).map (fun s => ("company", s))) ++
    ((cp.titleSeq.filter (fun s => s != "")).map (fun s => ("title", s)))

/-- Run `get_or_create` for each spec, accumulating the `nodes` id list in
loop order. -/
def createNodes (st : Store) : List (String × String) → Store × List Nat
  | [] => (st, [])
  | spec :: rest =>
    let r1 := getOrCreateNode st spec.1 spec.2
    let r2 := createNodes r1.1 rest
    (r2.1, r1.2 :: r2.2)

/-- The edge-loop body of `update_career_graph`:
`PathConnection.objects.get_or_create(from_node, to_node,
defaults={'weight': 1})`, then `weight += 1` whenever the row already
existed (regardless of membership), then `connection.profiles.add(profile)`
(a set add). -/
def updateEdge (st : Store) (pid : Nat) (a b : Nat) : Store :=
  if st.edges.any (fun e => e.fromId == a && e.toId == b) then
    ⟨st.nodes,
      st.edges.map (fun e =>
        if e.fromId == a && e.toId == b then
          ⟨e.fromId, e.toId, e.weight + 1,
            if e.profiles.contains pid then e.profiles else e.profiles ++ [pid]⟩
        else e),
      st.nextId⟩
  else ⟨st.nodes, st.edges ++ [⟨a, b, 1, [pid]⟩], st.nextId⟩

/-- `for i in range(len(nodes) - 1)`: one edge per consecutive pair. -/
def updateEdges (st : Store) (pid : Nat) : List Nat → Store
  | a :: b :: rest => updateEdges (updateEdge st pid a b) pid (b :: rest)
  | _ => st

/-- The outgoing `PathConnection` rows of a node. -/
def outgoingEdges (st : Store) (nid : Nat) : List SEdge :=
  st.edges.filter (fun e => e.fromId == nid)

/-- `PathConnection.objects.filter(from_node=node).values('profiles')
.distinct().count()`: the number of distinct profile ids across the node's
outgoing edge memberships.  (The SQL left join would add one `NULL` row per
member-less outgoing edge; the builder never leaves an edge member-less, so
that convention is not modelled.) -/
def distinctOutgoingProfiles (st : Store) (nid : Nat) : Nat :=
  ((outgoingEdges st nid).flatMap (fun e => e.profiles)).dedup.length

/-- One iteration of the recount loop:
`node.profiles_count = <count>; node.save()`. -/
def setNodeCount (st : Store) (nid : Nat) : Store :=
  ⟨st.nodes.map (fun n =>
      if n.id == nid then ⟨n.id, n.type, n.value, distinctOutgoingProfiles st nid⟩ else n),
    st.edges, st.nextId⟩

/-- The recount loop of `update_career_graph` over the touched nodes. -/
def recountNodes : Store → List Nat → Store
  | st, [] => st
  | st, nid :: rest => recountNodes (setNodeCount st nid) rest

/-- `update_career_graph(profile_id)` for a profile whose stored
`CareerPath` row holds the sequences of `cp`. -/
def update_career_graph (st : Store) (pid : Nat) (cp : CareerPathRec) : Store :=
  let r := createNodes st (nodeSpecs cp)
  recountNodes (updateEdges r.1 pid r.2) r.2

/-- A whole ingestion history: each profile's `update_career_graph` run in
sequence, starting from an empty store. -/
def ingestAll (runs : List (Nat × CareerPathRec)) : Store :=
  runs.foldl (fun s r => update_career_graph s r.1 r.2) emptyStore

/-- Primary keys are consistent with the id counter. -/
def storeWF (st : Store) : Prop :=
  (∀ n ∈ st.nodes, n.id < st.nextId) ∧ (∀ e ∈ st.edges, e.fromId < st.nextId)

/-- Every node's stored popularity equals the distinct profile count over
its outgoing edges. -/
def popularityInv (st : Store) : Prop :=
  ∀ n ∈ st.nodes, n.profilesCount = distinctOutgoingProfiles st n.id

lemma distinctOutgoing_setNodeCount (st : Store) (i x : Nat) :
    distinctOutgoingProfiles (setNodeCount st i) x = distinctOutgoingProfiles st x := rfl

/-- The recount loop rewrites exactly the touched nodes' counters to the
distinct outgoing-profile count, leaving edges and counter untouched. -/
lemma recount_eq :
    ∀ (ids : List Nat) (st : Store),
      recountNodes st ids =
        ⟨st.nodes.map (fun n =>
            if n.id ∈ ids then ⟨n.id, n.type, n.value, distinctOutgoingProfiles st n.id⟩
            else n),
          st.edges, st.nextId⟩ := by
  intro ids
  induction ids with
  | nil =>
    intro st
    show st = _
    cases st with
    | mk ns es k => simp
  | cons i ids ih =>
    intro st
    show recountNodes (setNodeCount st i) ids = _
    rw [ih (setNodeCount st i)]
    have hnodes : (setNodeCount st i).nodes.map (fun n =>
        if n.id ∈ ids then
          ⟨n.id, n.type, n.value, distinctOutgoingProfiles (setNodeCount st i) n.id⟩
        else n) =
        st.nodes.map (fun n =>
          if n.id ∈ i :: ids then
            ⟨n.id, n.type, n.value, distinctOutgoingProfiles st n.id⟩
          else n) := by
      show (st.nodes.map _).map _ = _
      rw [List.map_map]
      apply List.map_congr_left
      intro n _
      simp only [Function.comp_apply, distinctOutgoing_setNodeCount]
      by_cases hni : n.id = i
      · by_cases hmem : n.id ∈ ids
        · simp [hni, hmem]
        · simp [hni, hmem]
      · by_cases hmem : n.id ∈ ids
        · simp [hni, hmem]
        · simp [hni, hmem]
    rw [hnodes]
    rfl

/-- The node-creation phase leaves edges alone, advances the id counter,
keeps keys consistent, hands out only allocated ids, and adds only fresh
zero-count nodes. -/
lemma createNodes_spec :
    ∀ (specs : List (String × String)) (st : Store),
      (∀ n ∈ st.nodes, n.id < st.nextId) →
      (createNodes st specs).1.edges = st.edges ∧
      st.nextId ≤ (createNodes st specs).1.nextId ∧
      (∀ n ∈ (createNodes st specs).1.nodes, n.id < (createNodes st specs).1.nextId) ∧
      (∀ i ∈ (createNodes st specs).2, i < (createNodes st specs).1.nextId) ∧
      (∀ n ∈ (createNodes st specs).1.nodes,
        n ∈ st.nodes ∨ (st.nextId ≤ n.id ∧ n.profilesCount = 0)) := by
  intro specs
  induction specs with
  | nil =>
    intro st hb
    exact ⟨rfl, le_refl _, hb, by simp [createNodes], fun n hn => Or.inl hn⟩
  | cons spec rest ih =>
    intro st hb
    have hunfold : createNodes st (spec :: rest) =
        ((createNodes (getOrCreateNode st spec.1 spec.2).1 rest).1,
          (getOrCreateNode st spec.1 spec.2).2 ::
            (createNodes (getOrCreateNode st spec.1 spec.2).1 rest).2) := rfl
    cases hfind : st.nodes.find? (fun n => n.type == spec.1 && n.value == spec.2) with
    | some n =>
      have hst1 : getOrCreateNode st spec.1 spec.2 = (st, n.id) := by
        unfold getOrCreateNode
        rw [hfind]
      rw [hunfold, hst1]
      rcases ih st hb with ⟨h1, h2, h3, h4, h5⟩
      refine ⟨h1, h2, h3, ?_, h5⟩
      intro i hi
      rcases List.mem_cons.mp hi with h | h
      · subst h
        exact lt_of_lt_of_le (hb n (List.mem_of_find?_eq_some hfind)) h2
      · exact h4 i h
    | none =>
      have hst1 : getOrCreateNode st spec.1 spec.2 =
          (⟨st.nodes ++ [⟨st.nextId, spec.1, spec.2, 0⟩], st.edges, st.nextId + 1⟩, st.nextId) := by
        unfold getOrCreateNode
        rw [hfind]
      rw [hunfold, hst1]
      set st1 : Store := ⟨st.nodes ++ [⟨st.nextId, spec.1, spec.2, 0⟩], st.edges, st.nextId + 1⟩
        with hst1def
      have hb1 : ∀ n ∈ st1.nodes, n.id < st1.nextId := by
        intro n hn
        rcases List.mem_append.mp hn with h | h
        · exact lt_trans (hb n h) (Nat.lt_succ_self _)
        · rcases List.mem_singleton.mp h with rfl
          show st.nextId < st.nextId + 1
          omega
      rcases ih st1 hb1 with ⟨h1, h2, h3, h4, h5⟩
      refine ⟨h1, ?_, h3, ?_, ?_⟩
      · calc st.nextId ≤ st.nextId + 1 := by omega
          _ ≤ _ := h2
      · intro i hi
        rcases List.mem_cons.mp hi with h | h
        · subst h
          calc st.nextId < st.nextId + 1 := by omega
            _ ≤ _ := h2
        · exact h4 i h
      · intro n hn
        rcases h5 n hn with h | h
        · rcases List.mem_append.mp h with h | h
          · exact Or.inl h
          · rcases List.mem_singleton.mp h with rfl
            exact Or.inr ⟨le_refl _, rfl⟩
        · refine Or.inr ⟨?_, h.2⟩
          calc st.nextId ≤ st.nextId + 1 := by omega
            _ ≤ n.id := h.1

lemma filter_map_eq {α : Type} {l : List α} {f : α → α} {p : α → Bool}
    (hf : ∀ e, p e = true → f e = e) (hp : ∀ e, p (f e) = p e) :
    (l.map f).filter p = l.filter p := by
  induction l with
  | nil => rfl
  | cons e l ih =>
    rw [List.map_cons, List.filter_cons, List.filter_cons, hp e]
    by_cases hpe : p e = true
    · rw [if_pos hpe, if_pos hpe, hf e hpe, ih]
    · rw [if_neg hpe, if_neg hpe, ih]

/-- One edge update touches only edges leaving `a`, never nodes or the id
counter, and every resulting edge either leaves `a` or was already
present. -/
lemma updateEdge_spec (st : Store) (pid a b : Nat) :
    (updateEdge st pid a b).nodes = st.nodes ∧
    (updateEdge st pid a b).nextId = st.nextId ∧
    (∀ x, x ≠ a → outgoingEdges (updateEdge st pid a b) x = outgoingEdges st x) ∧
    (∀ e ∈ (updateEdge st pid a b).edges, e.fromId = a ∨ e ∈ st.edges) := by
  unfold updateEdge
  by_cases hex : st.edges.any (fun e => e.fromId == a && e.toId == b) = true
  · rw [if_pos hex]
    refine ⟨rfl, rfl, ?_, ?_⟩
    · intro x hx
      show (st.edges.map _).filter _ = st.edges.filter _
      apply filter_map_eq
      · intro e he
        have hea : e.fromId = x := by simpa using he
        rw [if_neg]
        simp only [Bool.and_eq_true, beq_iff_eq]
        rintro ⟨h1, _⟩
        exact hx (hea ▸ h1)
      · intro e
        by_cases hc : (e.fromId == a && e.toId == b) = true
        · rw [if_pos hc]
        · rw [if_neg hc]
    · intro e he
      rcases List.mem_map.mp he with ⟨e', he', hee⟩
      by_cases hc : (e'.fromId == a && e'.toId == b) = true
      · rw [if_pos hc] at hee
        left
        rw [← hee]
        have hc' := hc
        simp only [Bool.and_eq_true, beq_iff_eq] at hc'
        exact hc'.1
      · rw [if_neg hc] at hee
        exact Or.inr (hee ▸ he')
  · rw [if_neg hex]
    refine ⟨rfl, rfl, ?_, ?_⟩
    · intro x hx
      show (st.edges ++ [(⟨a, b, 1, [pid]⟩ : SEdge)]).filter (fun e => e.fromId == x) =
        st.edges.filter (fun e => e.fromId == x)
      rw [List.filter_append]
      have : ([(⟨a, b, 1, [pid]⟩ : SEdge)].filter (fun e => e.fromId == x)) = [] := by
        simp [hx.symm]
      rw [this, List.append_nil]
    · intro e he
      rcases List.mem_append.mp he with h | h
      · exact Or.inr h
      · rcases List.mem_singleton.mp h with rfl
        exact Or.inl rfl

/-- The edge phase over consecutive pairs of `ids`: nodes and counter are
untouched, the outgoing edges of nodes outside `ids` are untouched, and
every resulting edge leaves a node of `ids` or predates the phase. -/
lemma updateEdges_spec (pid : Nat) :
    ∀ (ids : List Nat) (st : Store),
      (updateEdges st pid ids).nodes = st.nodes ∧
      (updateEdges st pid ids).nextId = st.nextId ∧
      (∀ x, x ∉ ids → outgoingEdges (updateEdges st pid ids) x = outgoingEdges st x) ∧
      (∀ e ∈ (updateEdges st pid ids).edges, e.fromId ∈ ids ∨ e ∈ st.edges) := by
  intro ids
  induction ids with
  | nil =>
    intro st
    exact ⟨rfl, rfl, fun x _ => rfl, fun e he => Or.inr he⟩
  | cons a tail ih =>
    intro st
    match tail with
    | [] => exact ⟨rfl, rfl, fun x _ => rfl, fun e he => Or.inr he⟩
    | b :: rest =>
      show (updateEdges (updateEdge st pid a b) pid (b :: rest)).nodes = st.nodes ∧
        (updateEdges (updateEdge st pid a b) pid (b :: rest)).nextId = st.nextId ∧
        (∀ x, x ∉ a :: b :: rest →
          outgoingEdges (updateEdges (updateEdge st pid a b) pid (b :: rest)) x =
            outgoingEdges st x) ∧
        (∀ e ∈ (updateEdges (updateEdge st pid a b) pid (b :: rest)).edges,
          e.fromId ∈ a :: b :: rest ∨ e ∈ st.edges)
      rcases updateEdge_spec st pid a b with ⟨e1, e2, e3, e4⟩
      rcases ih (updateEdge st pid a b) with ⟨i1, i2, i3, i4⟩
      refine ⟨by rw [i1, e1], by rw [i2, e2], ?_, ?_⟩
      · intro x hx
        have hxa : x ≠ a := fun h => hx (by simp [h])
        have hxtail : x ∉ b :: rest := fun h => hx (by simp [h])
        rw [i3 x hxtail, e3 x hxa]
      · intro e he
        rcases i4 e he with h | h
        · exact Or.inl (by simp [h])
        · rcases e4 e h with h' | h'
          · exact Or.inl (by simp [h'])
          · exact Or.inr h'

lemma outgoingEdges_eq_of_edges_eq {st st' : Store} (h : st'.edges = st.edges) (x : Nat) :
    outgoingEdges st' x = outgoingEdges st x := by
  unfold outgoingEdges
  rw [h]

lemma distinctOutgoing_eq_of_edges_eq {st st' : Store} (h : st'.edges = st.edges) (x : Nat) :
    distinctOutgoingProfiles st' x = distinctOutgoingProfiles st x := by
  unfold distinctOutgoingProfiles
  rw [outgoingEdges_eq_of_edges_eq h]

lemma distinctOutgoing_zero_of_no_edges (st : Store) (x : Nat)
    (h : ∀ e ∈ st.edges, e.fromId ≠ x) : distinctOutgoingProfiles st x = 0 := by
  unfold distinctOutgoingProfiles outgoingEdges
  have : st.edges.filter (fun e => e.fromId == x) = [] := by
    rw [List.filter_eq_nil_iff]
    intro e he
    simpa using h e he
  rw [this]
  rfl

/-- A full `update_career_graph` run preserves key consistency and the
popularity invariant. -/
lemma update_preserves (st : Store) (pid : Nat) (cp : CareerPathRec)
    (hwf : storeWF st) (hinv : popularityInv st) :
    storeWF (update_career_graph st pid cp) ∧ popularityInv (update_career_graph st pid cp) := by
  rcases createNodes_spec (nodeSpecs cp) st hwf.1 with ⟨c1, c2, c3, c4, c5⟩
  set st1 := (createNodes st (nodeSpecs cp)).1 with hst1
  set ids := (createNodes st (nodeSpecs cp)).2 with hids
  rcases updateEdges_spec pid ids st1 with ⟨u1, u2, u3, u4⟩
  set st2 := updateEdges st1 pid ids with hst2
  have hfinal : update_career_graph st pid cp =
      ⟨st2.nodes.map (fun n =>
          if n.id ∈ ids then ⟨n.id, n.type, n.value, distinctOutgoingProfiles st2 n.id⟩
          else n),
        st2.edges, st2.nextId⟩ := by
    show recountNodes st2 ids = _
    exact recount_eq ids st2
  constructor
  · constructor
    · intro n hn
      rw [hfinal] at hn
      rcases List.mem_map.mp hn with ⟨m, hm, hmn⟩
      have hidm : n.id = m.id := by
        by_cases hc : m.id ∈ ids
        · rw [if_pos hc] at hmn
          rw [← hmn]
        · rw [if_neg hc] at hmn
          rw [← hmn]
      rw [hfinal]
      show n.id < st2.nextId
      rw [hidm, u2]
      have : m ∈ st1.nodes := by rw [← u1]; exact hm
      exact c3 m this
    · intro e he
      rw [hfinal] at he
      rw [hfinal]
      show e.fromId < st2.nextId
      rcases u4 e he with h | h
      · rw [u2]; exact c4 e.fromId h
      · rw [u2]
        have : e ∈ st.edges := by rw [← c1]; exact h
        exact lt_of_lt_of_le (hwf.2 e this) c2
  · intro n hn
    rw [hfinal] at hn ⊢
    rcases List.mem_map.mp hn with ⟨m, hm, hmn⟩
    have hdfinal : ∀ x, distinctOutgoingProfiles
        (⟨st2.nodes.map (fun n =>
            if n.id ∈ ids then ⟨n.id, n.type, n.value, distinctOutgoingProfiles st2 n.id⟩
            else n), st2.edges, st2.nextId⟩ : Store) x = distinctOutgoingProfiles st2 x := by
      intro x
      exact distinctOutgoing_eq_of_edges_eq rfl x
    rw [hdfinal]
    by_cases hc : m.id ∈ ids
    · rw [if_pos hc] at hmn
      rw [← hmn]
    · rw [if_neg hc] at hmn
      have hnotids : m.id ∉ ids := hc
      have hd21 : distinctOutgoingProfiles st2 m.id = distinctOutgoingProfiles st1 m.id := by
        unfold distinctOutgoingProfiles
        rw [u3 m.id hnotids]
      have hd10 : distinctOutgoingProfiles st1 m.id = distinctOutgoingProfiles st m.id :=
        distinctOutgoing_eq_of_edges_eq c1 m.id
      have hm1 : m ∈ st1.nodes := by rw [← u1]; exact hm
      rw [← hmn, hd21, hd10]
      rcases c5 m hm1 with h | h
      · exact hinv m h
      · rw [h.2]
        symm
        apply distinctOutgoing_zero_of_no_edges
        intro e he hex
        have := hwf.2 e he
        omega

/-- C7: after `update_career_graph` completes, every node it touched (every
node of the profile's node list) stores `profiles_count` equal to the number
of distinct profile ids across its outgoing edge memberships; and after a
full rebuild — any ingestion history replayed from an empty store — that
equality holds for every node of the store. -/
theorem claim_C7 :
    (∀ (st : Store) (pid : Nat) (cp : CareerPathRec),
      ∀ n ∈ (update_career_graph st pid cp).nodes,
        n.id ∈ (createNodes st (nodeSpecs cp)).2 →
        n.profilesCount = distinctOutgoingProfiles (update_career_graph st pid cp) n.id) ∧
    (∀ (runs : List (Nat × CareerPathRec)),
      ∀ n ∈ (ingestAll runs).nodes,
        n.profilesCount = distinctOutgoingProfiles (ingestAll runs) n.id) := by
  constructor
  · intro st pid cp n hn hid
    set st1 := (createNodes st (nodeSpecs cp)).1 with hst1
    set ids := (createNodes st (nodeSpecs cp)).2 with hids
    set st2 := updateEdges st1 pid ids with hst2
    have hfinal : update_career_graph st pid cp =
        ⟨st2.nodes.map (fun n =>
            if n.id ∈ ids then ⟨n.id, n.type, n.value, distinctOutgoingProfiles st2 n.id⟩
            else n),
          st2.edges, st2.nextId⟩ := by
      show recountNodes st2 ids = _
      exact recount_eq ids st2
    rw [hfinal] at hn ⊢
    rcases List.mem_map.mp hn with ⟨m, hm, hmn⟩
    have hdfinal : ∀ x, distinctOutgoingProfiles
        (⟨st2.nodes.map (fun n =>
            if n.id ∈ ids then ⟨n.id, n.type, n.value, distinctOutgoingProfiles st2 n.id⟩
            else n), st2.edges, st2.nextId⟩ : Store) x = distinctOutgoingProfiles st2 x := by
      intro x
      exact distinctOutgoing_eq_of_edges_eq rfl x
    rw [hdfinal]
    by_cases hc : m.id ∈ ids
    · rw [if_pos hc] at hmn
      rw [← hmn]
    · rw [if_neg hc] at hmn
      have : n.id ∉ ids := by
        rw [← hmn]
        exact hc
      exact absurd hid this
  · intro runs
    have key : ∀ (rs : List (Nat × CareerPathRec)) (st : Store),
        storeWF st → popularityInv st →
        storeWF (rs.foldl (fun s r => update_career_graph s r.1 r.2) st) ∧
          popularityInv (rs.foldl (fun s r => update_career_graph s r.1 r.2) st) := by
      intro rs
      induction rs with
      | nil => intro st h1 h2; exact ⟨h1, h2⟩
      | cons r rs ih =>
        intro st h1 h2
        rcases update_preserves st r.1 r.2 h1 h2 with ⟨h1', h2'⟩
        exact ih _ h1' h2'
    have hempty : storeWF emptyStore ∧ popularityInv emptyStore := by
      refine ⟨⟨?_, ?_⟩, ?_⟩ <;> intro x hx <;> simp [emptyStore] at hx
    exact (key runs emptyStore hempty.1 hempty.2).2

/-- C7 witness: ingesting profile 1 with path MIT → Google touches nodes 1
and 2; the recorded popularity of node 1 equals its distinct outgoing
membership count, both after the single run and over a two-profile
history. -/
theorem claim_C7_witness :
    ((⟨1, "university", "MIT", 1⟩ : SNode).profilesCount =
      distinctOutgoingProfiles
        (update_career_graph emptyStore 1 ⟨["MIT"], ["Google"], []⟩) 1) ∧
    ((⟨1, "university", "MIT", 2⟩ : SNode).profilesCount =
      distinctOutgoingProfiles
        (ingestAll [(1, ⟨["MIT"], ["Google"], []⟩), (2, ⟨["MIT"], ["Google"], []⟩)]) 1) :=
  ⟨claim_C7.1 emptyStore 1 ⟨["MIT"], ["Google"], []⟩ ⟨1, "university", "MIT", 1⟩
      (by decide) (by decide),
    claim_C7.2 [(1, ⟨["MIT"], ["Google"], []⟩), (2, ⟨["MIT"], ["Google"], []⟩)]
      ⟨1, "university", "MIT", 2⟩ (by decide)⟩

/-- A one-education, one-experience career path: MIT then Google (the title
sequence left empty to keep the trace small). -/
def cpMITGoogle : CareerPathRec := ⟨["MIT"], ["Google"], []⟩

/-- C1: false of the source — `update_career_graph` increments an edge's
weight on every revisit, even when the triggering profile is already a
recorded member.  Reprocessing profile 1 over the same MIT → Google path
leaves the membership set at the single distinct profile `{1}` but drives
the weight to 2, so weight no longer equals the distinct-member count; a
single run does satisfy the equality. -/
theorem claim_C1_bug_eval :
    (∀ e ∈ (update_career_graph emptyStore 1 cpMITGoogle).edges,
      e.weight = e.profiles.dedup.length) ∧
    (update_career_graph (update_career_graph emptyStore 1 cpMITGoogle) 1 cpMITGoogle).edges =
      [⟨1, 2, 2, [1]⟩] ∧
    (∃ e ∈ (update_career_graph
        (update_career_graph emptyStore 1 cpMITGoogle) 1 cpMITGoogle).edges,
      e.profiles.contains 1 ∧ e.weight ≠ e.profiles.dedup.length) := by
  decide

/-- A result row read from the backing store during `_load_graph_data`,
modelling the two streams `PathNode.objects.all()` and
`PathConnection.objects.all()` as one stream of read events; `failure` is
the point where the store raises (StoreUnavailable), which
`_load_graph_data` does not catch. -/
inductive ReadItem where
  | node (n : GNode)
  | edge (e : GEdge)
  | failure
deriving DecidableEq

/-- `networkx.DiGraph.add_node` with attributes: replaces the attributes
when the id is already present, else appends. -/
def addNode (g : Graph) (n : GNode) : Graph :=
  if g.nodes.any (fun m => m.id == n.id) then
    ⟨g.nodes.map (fun m => if m.id == n.id then n else m), g.edges⟩
  else ⟨g.nodes ++ [n], g.edges⟩

/-- `networkx.DiGraph.add_edge` with attributes.  (In the loader every
endpoint id was already added as a node — `PathConnection` holds foreign
keys into `PathNode` — so the library's implicit creation of missing
endpoints never fires and is not modelled.) -/
def addEdge (g : Graph) (e : GEdge) : Graph :=
  if g.edges.any (fun f => f.src == e.src && f.dst == e.dst) then
    ⟨g.nodes, g.edges.map (fun f => if f.src == e.src && f.dst == e.dst then e else f)⟩
  else ⟨g.nodes, g.edges ++ [e]⟩

def emptyGraph : Graph := ⟨[], []⟩

/-- The row loop of `_load_graph_data`: add each read row to the graph being
(re)built; a read failure aborts the loop, leaving whatever has been built
so far, and reports failure. -/
def loadGo : Graph → List ReadItem → Graph × Bool
  | g, [] => (g, true)
  | g, .node n :: rest => loadGo (addNode g n) rest
  | g, .edge e :: rest => loadGo (addEdge g e) rest
  | g, .failure :: _ => (g, false)

/-- `_load_graph_data` run while `active` is the live snapshot.  The method
begins with `self.graph.clear()` — discarding the active snapshot in place —
and then adds rows one by one to the same object, so the first component
(the graph object left behind as `self.graph`) is the freshly rebuilt graph
whether or not the read succeeded; the second component records success.
The `active` argument is exactly what the routine throws away. -/
def load_graph_data (store : List ReadItem) (active : Graph) : Graph × Bool :=
  loadGo emptyGraph store

/-- The previously active snapshot for the C2 counterexample: one MIT node. -/
def prevG : Graph := ⟨[⟨1, "university", "MIT", 2⟩], []⟩

/-- C2: false of the source — reload is not all-or-nothing.  Against a store
that yields one node and then fails, `_load_graph_data` reports failure but
leaves as the active snapshot the partially rebuilt graph (just the one new
node): the previous snapshot is destroyed by the in-place `clear()`, and a
partially-loaded graph is exactly what remains queryable. -/
theorem claim_C2_bug_eval :
    load_graph_data [.node ⟨3, "company", "Acme", 0⟩, .failure] prevG =
      (⟨[⟨3, "company", "Acme", 0⟩], []⟩, false) ∧
    (⟨[⟨3, "company", "Acme", 0⟩], []⟩ : Graph) ≠ prevG ∧
    (⟨[⟨3, "company", "Acme", 0⟩], []⟩ : Graph) ≠ emptyGraph := by
  decide

end CareerGraph
